import Mathlib

/-!
# Verification of the `ruffman` Huffman coder (src/main.rs)

Shallow embedding of the core data model and operations of the program:
frequency counting (`calc_freq`), Huffman tree construction (`calc_huff`),
code-table derivation (`huff_compress`), payload encoding (`get_compressed`),
payload decoding (`decompress`), and the tree byte codec
(`NodeBytes::as_bytes_rec` / `NodeBytes::into_node`).

Modelling conventions:
* Rust `char` symbols are modelled as `Nat` Unicode code points; `String`
  becomes `List Nat` (the sequence of code points).
* Rust `u32` weights are modelled as `Nat` (exact for all weights below
  `2^32`; no claim here exercises `u32` wrap-around).
* Rust panics (`Option::unwrap` on `None`) are modelled by returning `none`
  from an `Option`-valued function.
* `BinaryHeap<Reverse<Node>>` is modelled as a `List Node` together with
  `popMin`, which removes a minimal element under the order derived for
  `Node` (Rust `#[derive(Ord)]`); since that derived order is total and
  structural, equal elements are identical, so which copy a heap pops is
  observationally irrelevant and the list model computes the same values.
-/

/-- The Rust `Node` enum: `Leaf(LeafNode)` with fields `weight, symb`, or
`Internal(InternalNode)` with fields `left, right, weight`, where the
children are `Option<Box<Node>>`. -/
inductive Node : Type
  | leaf (weight : Nat) (symb : Nat)
  | internal (left : Option Node) (right : Option Node) (weight : Nat)
deriving Repr

/-- `HasWeight::weight` for `Node`. -/
def Node.weight : Node → Nat
  | .leaf w _ => w
  | .internal _ _ w => w

/-- The comparison Rust derives for `Node` (`#[derive(Ord)]`): the `Leaf`
variant sorts before the `Internal` variant; `LeafNode` compares its fields
`(weight, symb)` lexicographically; `InternalNode` compares
`(left, right, weight)` lexicographically, with `None < Some` on the
optional children. -/
def cmpNode : Node → Node → Ordering
  | .leaf w1 s1, .leaf w2 s2 => (compare w1 w2).then (compare s1 s2)
  | .leaf _ _, .internal _ _ _ => .lt
  | .internal _ _ _, .leaf _ _ => .gt
  | .internal l1 r1 w1, .internal l2 r2 w2 =>
      ((match l1, l2 with
        | none, none => Ordering.eq
        | none, some _ => Ordering.lt
        | some _, none => Ordering.gt
        | some a, some b => cmpNode a b).then
       (match r1, r2 with
        | none, none => Ordering.eq
        | none, some _ => Ordering.lt
        | some _, none => Ordering.gt
        | some a, some b => cmpNode a b)).then
      (compare w1 w2)

/-- Rust's derived comparison on `Option<Box<Node>>`: `None` sorts below
`Some`, and two `Some`s compare their contents. -/
def cmpOpt : Option Node → Option Node → Ordering
  | none, none => .eq
  | none, some _ => .lt
  | some _, none => .gt
  | some a, some b => cmpNode a b

/-- Pop a minimal element (under `cmpNode`) from the list: the model of
`BinaryHeap::pop` on a `Reverse<Node>` max-heap.  Returns the popped node
and the remaining elements, or `none` on the empty heap. -/
def popMin : List Node → Option (Node × List Node)
  | [] => none
  | n :: rest =>
    match popMin rest with
    | none => some (n, [])
    | some (m, r) => if cmpNode n m = .gt then some (m, n :: r) else some (n, rest)

/-- The `while set.len() > 1` merge loop shared by `calc_huff` and
`NodeBytes::into_node`: pop the two smallest nodes, merge them into an
`Internal` node whose weight is the sum, push it back.  Structured with
explicit fuel so that it is structural recursion; `fuel = length` always
suffices since each iteration shrinks the list by one. -/
def huffLoopFuel : Nat → List Node → List Node
  | 0, l => l
  | fuel + 1, l =>
    match popMin l with
    | none => l
    | some (n0, r0) =>
      match popMin r0 with
      | none => l
      | some (n1, r1) =>
        huffLoopFuel fuel (Node.internal (some n0) (some n1) (n0.weight + n1.weight) :: r1)

/-- `calc_huff`: build one leaf per `(symb, weight)` pair, run the merge
loop, and pop the root.  The final `set.pop().unwrap()` panics when the
input list is empty; that panic is modelled by `none`. -/
def calcHuff (n : List (Nat × Nat)) : Option Node :=
  (popMin (huffLoopFuel n.length (n.map fun i => Node.leaf i.2 i.1))).map Prod.fst

/-- Total weight carried by a heap state. -/
def sumWeights (l : List Node) : Nat :=
  (l.map Node.weight).sum

/-- One step of `calc_freq`'s loop body: increment the count of the first
entry for `c`, or append `(c, 1)` when `c` has no entry yet. -/
def bumpFreq : List (Nat × Nat) → Nat → List (Nat × Nat)
  | [], c => [(c, 1)]
  | (c0, v) :: rest, c =>
    if c0 = c then (c0, v + 1) :: rest else (c0, v) :: bumpFreq rest c

/-- `calc_freq`: count occurrences of each symbol, first-seen order. -/
def calcFreq (input : List Nat) : List (Nat × Nat) :=
  input.foldl bumpFreq []

/-- `Huffman::huff_compress`: derive the code table by depth-first traversal,
appending `0` when descending into a present left child and `1` when
descending into a present right child; at a leaf, record `(symb, code)`.
The returned list is the `HashMap` insertion sequence (left subtree first,
then right subtree, exactly as the recursion inserts). -/
def huffCompress : Node → List Nat → List (Nat × List Nat)
  | .leaf _ s, code => [(s, code)]
  | .internal l r _, code =>
    (match l with
     | some x => huffCompress x (code ++ [0])
     | none => []) ++
    (match r with
     | some x => huffCompress x (code ++ [1])
     | none => [])

/-- `HashMap::get` on the insertion sequence produced by `huffCompress`:
the last inserted binding for a key wins (`HashMap::insert` overwrites). -/
def lookupCode (codes : List (Nat × List Nat)) (c : Nat) : Option (List Nat) :=
  match codes with
  | [] => none
  | (s, v) :: rest =>
    match lookupCode rest c with
    | some r => some r
    | none => if s = c then some v else none

/-- `Huffman::get_compressed`: concatenate each input symbol's code.
`char_codes.get(&char).unwrap()` panics when a symbol has no code;
that panic is modelled by `none`. -/
def getCompressed (input : List Nat) (codes : List (Nat × List Nat)) : Option (List Nat) :=
  input.foldl
    (fun acc c =>
      match acc, lookupCode codes c with
      | some r, some code => some (r ++ code)
      | _, _ => none)
    (some [])

/-- One bit of `Huffman::decompress`'s cursor movement: on bit `0` move to
a present left child, on any other bit move to a present right child;
in every other case (at a leaf, or the child is absent) stay put. -/
def descend (cur : Node) (val : Nat) : Node :=
  if val = 0 then
    match cur with
    | .internal (some l) _ _ => l
    | _ => cur
  else
    match cur with
    | .internal _ (some r) _ => r
    | _ => cur

/-- One iteration of `Huffman::decompress`'s `for val in compressed` body:
move the cursor, then if it now rests on a leaf, emit the leaf's symbol and
reset the cursor to the root. -/
def decompressStep (root : Node) (st : Node × List Nat) (val : Nat) : Node × List Nat :=
  match descend st.1 val with
  | .leaf _ s => (root, st.2 ++ [s])
  | c => (c, st.2)

/-- `Huffman::decompress`: walk the tree bit by bit, collecting emitted
symbols; whatever has been collected when the bits run out is returned
(the function is infallible in the source and returns a plain `String`). -/
def decompress (root : Node) (compressed : List Nat) : List Nat :=
  (compressed.foldl (decompressStep root) (root, [])).2

/-- The whole pipeline the source's own tests exercise:
`Huffman::from_input`, `compress`, `get_compressed`, `decompress`.
`none` models a panic somewhere along the way. -/
def roundTrip (input : List Nat) : Option (List Nat) :=
  match calcHuff (calcFreq input) with
  | none => none
  | some t =>
    match getCompressed input (huffCompress t []) with
    | none => none
    | some bits => some (decompress t bits)

/-- `NodeBytes::as_bytes_rec`, with the `self.bytes` accumulator made
explicit: an `Internal` node pushes a marker `0` before each *present*
child and recurses into it; a `Leaf` pushes `1` and then `symb as u8`,
i.e. the code point reduced mod 256. -/
def asBytesRec (bytes : List Nat) : Node → List Nat
  | .leaf _ s => bytes ++ [1, s % 256]
  | .internal l r _ =>
    let bytes1 :=
      match l with
      | some x => asBytesRec (bytes ++ [0]) x
      | none => bytes
    match r with
    | some x => asBytesRec (bytes1 ++ [0]) x
    | none => bytes1

/-- `NodeBytes::as_bytes`: serialize starting from an empty byte buffer. -/
def asBytes (n : Node) : List Nat :=
  asBytesRec [] n

/-- The same byte sequence `asBytes` emits, written as a direct recursion
with no accumulator: each present child of an `Internal` node contributes
a marker `0` followed by that child's bytes; a `Leaf` contributes `1`
followed by its symbol's code point mod 256. -/
def serBytes : Node → List Nat
  | .leaf _ s => [1, s % 256]
  | .internal l r _ =>
    (match l with
     | some x => 0 :: serBytes x
     | none => []) ++
    (match r with
     | some x => 0 :: serBytes x
     | none => [])

/-- Modelled from the spec: the serialization format the spec describes
(one marker byte `0` per `Internal` node, followed by the left subtree's
bytes and then the right subtree's bytes; a `Leaf` is `1` then the symbol
byte).  Used only to compare the spec's stated format with the source's
actual `as_bytes_rec` output. -/
def serSpecFormat : Node → List Nat
  | .leaf _ s => [1, s % 256]
  | .internal l r _ =>
    0 ::
    ((match l with
      | some x => serSpecFormat x
      | none => []) ++
     (match r with
      | some x => serSpecFormat x
      | none => []))

/-- The first loop of `NodeBytes::into_node`: scan the bytes left to right;
each byte equal to `1` makes a `Leaf` of weight `0` whose symbol is the
following byte (consumed by the iterator); every other byte is skipped.
`bytes_iter.next().unwrap()` panics when the bytes end right after a `1`;
modelled by `none`. -/
def collectLeaves : List Nat → Option (List Node)
  | [] => some []
  | b :: rest =>
    if b = 1 then
      match rest with
      | [] => none
      | s :: rest2 => (collectLeaves rest2).map (fun ns => Node.leaf 0 s :: ns)
    else collectLeaves rest

/-- `NodeBytes::into_node`: collect the leaves from the bytes, then run the
same pop-two/merge/push loop as `calc_huff` and pop the result.  The final
`nodes.pop().unwrap()` panics when no leaf was collected; modelled by
`none`. -/
def intoNode (bytes : List Nat) : Option Node :=
  match collectLeaves bytes with
  | none => none
  | some ns => (popMin (huffLoopFuel ns.length ns)).map Prod.fst

/-- The leaf symbols of a tree in left-to-right (preorder) order. -/
def leafSymbols : Node → List Nat
  | .leaf _ s => [s]
  | .internal l r _ =>
    (match l with
     | some x => leafSymbols x
     | none => []) ++
    (match r with
     | some x => leafSymbols x
     | none => [])

/-- The weight invariant of built trees: every `Internal` node has both
children present and carries exactly the sum of their weights. -/
def wellWeighted : Node → Prop
  | .leaf _ _ => True
  | .internal (some l) (some r) w =>
    w = l.weight + r.weight ∧ wellWeighted l ∧ wellWeighted r
  | .internal _ _ _ => False

/-- Modelled from the spec: a stable minimum-weight pop for the tie-break
rule the spec states (`when weights are equal, break ties by original
insertion order — first-seen symbol sorts first`): among the elements of
minimal weight, the earliest-inserted one is popped. -/
def popMinWeight : List Node → Option (Node × List Node)
  | [] => none
  | n :: rest =>
    match popMinWeight rest with
    | none => some (n, [])
    | some (m, r) => if n.weight ≤ m.weight then some (n, rest) else some (m, n :: r)

/-- Modelled from the spec: the merge loop with the spec's minimum-weight,
first-seen tie-break discipline; newly merged nodes are appended last, so
insertion order is pop order among equal weights. -/
def huffLoopSpecFuel : Nat → List Node → List Node
  | 0, l => l
  | fuel + 1, l =>
    match popMinWeight l with
    | none => l
    | some (n0, r0) =>
      match popMinWeight r0 with
      | none => l
      | some (n1, r1) =>
        huffLoopSpecFuel fuel
          (r1 ++ [Node.internal (some n0) (some n1) (n0.weight + n1.weight)])

/-- Modelled from the spec: tree construction as the spec's words describe
it — repeatedly pop the two minimum-weight nodes, ties broken by insertion
order, merge, push back. -/
def calcHuffFirstSeen (n : List (Nat × Nat)) : Option Node :=
  (popMinWeight (huffLoopSpecFuel n.length (n.map fun i => Node.leaf i.2 i.1))).map Prod.fst



/-! ## Serialization lemmas -/

/-- `as_bytes_rec` only ever appends to the byte buffer: running it on a
buffer equals the buffer followed by the direct serialization `serBytes`. -/
theorem asBytesRec_eq_append : ∀ (n : Node) (bytes : List Nat),
    asBytesRec bytes n = bytes ++ serBytes n
  | .leaf _ s, bytes => by simp [asBytesRec, serBytes]
  | .internal l r w, bytes => by
    cases l with
    | none =>
      cases r with
      | none => simp [asBytesRec, serBytes]
      | some y => simp [asBytesRec, serBytes, asBytesRec_eq_append y]
    | some x =>
      cases r with
      | none => simp [asBytesRec, serBytes, asBytesRec_eq_append x]
      | some y => simp [asBytesRec, serBytes, asBytesRec_eq_append x, asBytesRec_eq_append y]

/-- A marker byte `0` is skipped by the leaf-collecting scan. -/
theorem collectLeaves_cons_zero (z : List Nat) : collectLeaves (0 :: z) = collectLeaves z := by
  rw [collectLeaves.eq_def]
  simp

/-- A marker byte `1` makes the scan consume the following byte as a
weight-0 leaf symbol. -/
theorem collectLeaves_cons_one (s : Nat) (z : List Nat) :
    collectLeaves (1 :: s :: z) = (collectLeaves z).map (fun ns => Node.leaf 0 s :: ns) := by
  rw [collectLeaves.eq_def]
  simp

/-- The leaf-collecting scan of `into_node` reads a serialized tree as the
list of its leaf symbols reduced mod 256 (weight 0), then keeps scanning. -/
theorem collectLeaves_serBytes : ∀ (t : Node) (rest : List Nat),
    collectLeaves (serBytes t ++ rest) =
      (collectLeaves rest).map
        (fun ns => ((leafSymbols t).map fun s => Node.leaf 0 (s % 256)) ++ ns)
  | .leaf _ s, rest => by
    simp [serBytes, leafSymbols, collectLeaves_cons_one]
  | .internal l r w, rest => by
    cases l with
    | none =>
      cases r with
      | none => simp [serBytes, leafSymbols]
      | some y =>
        simp [serBytes, leafSymbols, collectLeaves_cons_zero, collectLeaves_serBytes y rest]
    | some x =>
      cases r with
      | none =>
        simp [serBytes, leafSymbols, collectLeaves_cons_zero, collectLeaves_serBytes x rest]
      | some y =>
        have hx := collectLeaves_serBytes x ((0 :: serBytes y) ++ rest)
        have hy := collectLeaves_serBytes y rest
        simp only [List.cons_append, collectLeaves_cons_zero] at hx
        rw [hy] at hx
        simp only [serBytes, leafSymbols, List.cons_append, List.append_assoc,
          collectLeaves_cons_zero]
        rw [hx]
        cases h : collectLeaves rest <;> simp [h]

/-! ## Concrete behaviour of the pipeline -/

/-- C1: The claim states `decompress (get_compressed ()) == S` for every
non-empty `S` and `""` for `S = ""`.  The code violates both edge cases:
the round trip does recover `"Hello"`, but a single-symbol input such as
`"aaaa"` compresses to no bits at all (the lone leaf gets the empty code)
and decompresses to `""`, and for `S = ""` the pipeline panics inside
`calc_huff` (modelled by `none`) instead of returning `""`. -/
theorem roundTrip_single_symbol_and_empty :
    roundTrip [72, 101, 108, 108, 111] = some [72, 101, 108, 108, 111]
    ∧ roundTrip [97, 97, 97, 97] = some []
    ∧ ([] : List Nat) ≠ [97, 97, 97, 97]
    ∧ roundTrip ([] : List Nat) = none :=
  ⟨rfl, rfl, by decide, rfl⟩

/-- C2: `calc_huff` on a frequency table with zero entries does not return
an `EmptyInputError` value — it panics on `set.pop().unwrap()`; the panic
is modelled by `none` (the source has no error type at all). -/
theorem calcHuff_empty_table_panics : calcHuff [] = none := rfl

/-- C4: For input `"aaaa"` the tree is the lone `Leaf` as claimed, but the
derived code for `a` is the empty bit sequence, not the claimed single bit
`0`: `huff_compress` reaches the root leaf with the initial empty code, so
`"aaaa"` compresses to no bits and decompressing recovers `""`, not
`"aaaa"`. -/
theorem single_symbol_code_empty :
    calcHuff (calcFreq [97, 97, 97, 97]) = some (Node.leaf 4 97)
    ∧ huffCompress (Node.leaf 4 97) [] = [(97, ([] : List Nat))]
    ∧ ([] : List Nat) ≠ [0]
    ∧ getCompressed [97, 97, 97, 97] [(97, [])] = some []
    ∧ decompress (Node.leaf 4 97) [] = [] :=
  ⟨rfl, rfl, by decide, rfl, rfl⟩

/-- C5 counterexample: on the tree built from `"ab"`, `as_bytes` emits a
marker `0` before *each* child — `[0, 1, 97, 0, 1, 98]` — and not the
claimed single marker per `Internal` node, which would give
`[0, 1, 97, 1, 98]`. -/
theorem asBytes_ne_specFormat :
    calcHuff (calcFreq [97, 98]) =
      some (Node.internal (some (Node.leaf 1 97)) (some (Node.leaf 1 98)) 2)
    ∧ asBytes (Node.internal (some (Node.leaf 1 97)) (some (Node.leaf 1 98)) 2) =
      [0, 1, 97, 0, 1, 98]
    ∧ serSpecFormat (Node.internal (some (Node.leaf 1 97)) (some (Node.leaf 1 98)) 2) =
      [0, 1, 97, 1, 98]
    ∧ [0, 1, 97, 0, 1, 98] ≠ [0, 1, 97, 1, 98] :=
  ⟨rfl, rfl, rfl, by decide⟩

/-- C5 (amended): `as_bytes` emits, for every `Internal` node, one marker
byte `0` before each *present* child followed by that child's serialization,
and for every `Leaf` the marker `1` followed by the symbol's code point
mod 256 — i.e. it computes `serBytes`. -/
theorem asBytes_eq_serBytes (n : Node) : asBytes n = serBytes n := by
  rw [asBytes, asBytesRec_eq_append, List.nil_append]

/-- C6: deserializing the serialized bytes of the tree built from `"Hello"`
does not restore the tree's shape: `into_node` collects the leaves (with
weight 0) and re-merges them by symbol order, which swaps the `o`/`l`
subtree, so the reconstructed leaf sequence `[72, 101, 108, 111]` differs
from the original `[72, 101, 111, 108]`. -/
theorem intoNode_not_shape_roundtrip :
    calcHuff (calcFreq [72, 101, 108, 108, 111]) =
      some (Node.internal
        (some (Node.internal (some (Node.leaf 1 72)) (some (Node.leaf 1 101)) 2))
        (some (Node.internal (some (Node.leaf 1 111)) (some (Node.leaf 2 108)) 3)) 5)
    ∧ intoNode (asBytes (Node.internal
        (some (Node.internal (some (Node.leaf 1 72)) (some (Node.leaf 1 101)) 2))
        (some (Node.internal (some (Node.leaf 1 111)) (some (Node.leaf 2 108)) 3)) 5)) =
      some (Node.internal
        (some (Node.internal (some (Node.leaf 0 72)) (some (Node.leaf 0 101)) 0))
        (some (Node.internal (some (Node.leaf 0 108)) (some (Node.leaf 0 111)) 0)) 0)
    ∧ leafSymbols (Node.internal
        (some (Node.internal (some (Node.leaf 0 72)) (some (Node.leaf 0 101)) 0))
        (some (Node.internal (some (Node.leaf 0 108)) (some (Node.leaf 0 111)) 0)) 0) ≠
      leafSymbols (Node.internal
        (some (Node.internal (some (Node.leaf 1 72)) (some (Node.leaf 1 101)) 2))
        (some (Node.internal (some (Node.leaf 1 111)) (some (Node.leaf 2 108)) 3)) 5) :=
  ⟨rfl, rfl, by decide⟩

/-- C9: `decompress` raises nothing when the bits run out mid-tree — it
returns the symbols decoded so far and silently drops the dangling bits.
On the `"Hello"` tree, the full payload is `[0,0,0,1,1,1,1,1,1,0]`;
dropping its last bit yields `"Hell"` (`[72, 101, 108, 108]`) with no
error, and the lone bit `[0]` yields `""`. -/
theorem decompress_truncated_silent :
    calcHuff (calcFreq [72, 101, 108, 108, 111]) =
      some (Node.internal
        (some (Node.internal (some (Node.leaf 1 72)) (some (Node.leaf 1 101)) 2))
        (some (Node.internal (some (Node.leaf 1 111)) (some (Node.leaf 2 108)) 3)) 5)
    ∧ getCompressed [72, 101, 108, 108, 111]
        (huffCompress (Node.internal
          (some (Node.internal (some (Node.leaf 1 72)) (some (Node.leaf 1 101)) 2))
          (some (Node.internal (some (Node.leaf 1 111)) (some (Node.leaf 2 108)) 3)) 5) []) =
      some [0, 0, 0, 1, 1, 1, 1, 1, 1, 0]
    ∧ decompress (Node.internal
        (some (Node.internal (some (Node.leaf 1 72)) (some (Node.leaf 1 101)) 2))
        (some (Node.internal (some (Node.leaf 1 111)) (some (Node.leaf 2 108)) 3)) 5)
        [0, 0, 0, 1, 1, 1, 1, 1, 1] = [72, 101, 108, 108]
    ∧ decompress (Node.internal
        (some (Node.internal (some (Node.leaf 1 72)) (some (Node.leaf 1 101)) 2))
        (some (Node.internal (some (Node.leaf 1 111)) (some (Node.leaf 2 108)) 3)) 5)
        [0] = [] :=
  ⟨rfl, rfl, rfl, rfl⟩

/-- C3 counterexample: the heap pop order is not minimum-weight with
first-seen tie-break.  On `"ba"` the two weights tie and the code pops
`'a'` (smaller code point) first although `'b'` was seen first; on
`"abcccddd"` the code pops the two weight-3 leaves `c, d` while the merged
internal node of weight 2 is waiting (every `Leaf` sorts before every
`Internal` in the derived order), so the built tree differs from the
spec-modelled minimum-weight/first-seen tree even in its leaf sequence. -/
theorem calcHuff_ne_firstSeen :
    Option.map leafSymbols (calcHuff (calcFreq [98, 97])) ≠
      Option.map leafSymbols (calcHuffFirstSeen (calcFreq [98, 97]))
    ∧ Option.map leafSymbols (calcHuff (calcFreq [97, 98, 99, 99, 99, 100, 100, 100])) ≠
      Option.map leafSymbols (calcHuffFirstSeen (calcFreq [97, 98, 99, 99, 99, 100, 100, 100])) :=
  ⟨by decide, by decide⟩

/-! ## The derived total order on nodes -/

theorem ordering_then_eq (x y : Ordering) : x.then y = .eq ↔ x = .eq ∧ y = .eq := by
  cases x <;> simp [Ordering.then]

theorem ordering_then_lt (x y : Ordering) : x.then y = .lt ↔ x = .lt ∨ (x = .eq ∧ y = .lt) := by
  cases x <;> simp [Ordering.then]

theorem ordering_then_swap (x y : Ordering) : (x.then y).swap = x.swap.then y.swap := by
  cases x <;> cases y <;> rfl

/-- `cmpNode` on two `Internal` nodes is the lexicographic comparison of
`(left, right, weight)`. -/
theorem cmpNode_internal (l1 r1 : Option Node) (w1 : Nat) (l2 r2 : Option Node) (w2 : Nat) :
    cmpNode (.internal l1 r1 w1) (.internal l2 r2 w2) =
      ((cmpOpt l1 l2).then (cmpOpt r1 r2)).then (compare w1 w2) := by
  cases l1 <;> cases l2 <;> cases r1 <;> cases r2 <;> rw [cmpNode.eq_def] <;> simp [cmpOpt]

/-- `cmpNode` answers `.eq` exactly on equal nodes. -/
theorem cmpNode_eq_iff : ∀ a b : Node, cmpNode a b = .eq ↔ a = b
  | .leaf w1 s1, .leaf w2 s2 => by
    simp [cmpNode, ordering_then_eq, Nat.compare_eq_eq]
  | .leaf _ _, .internal _ _ _ => by simp [cmpNode]
  | .internal _ _ _, .leaf _ _ => by simp [cmpNode]
  | .internal l1 r1 w1, .internal l2 r2 w2 => by
    have hl : cmpOpt l1 l2 = .eq ↔ l1 = l2 := by
      cases l1 with
      | none => cases l2 <;> simp [cmpOpt]
      | some a =>
        cases l2 with
        | none => simp [cmpOpt]
        | some b => simpa [cmpOpt] using cmpNode_eq_iff a b
    have hr : cmpOpt r1 r2 = .eq ↔ r1 = r2 := by
      cases r1 with
      | none => cases r2 <;> simp [cmpOpt]
      | some a =>
        cases r2 with
        | none => simp [cmpOpt]
        | some b => simpa [cmpOpt] using cmpNode_eq_iff a b
    rw [cmpNode_internal]
    simp [ordering_then_eq, hl, hr, Nat.compare_eq_eq, and_assoc]

/-- Swapping the arguments of `cmpNode` swaps the answer. -/
theorem cmpNode_swap : ∀ a b : Node, cmpNode b a = (cmpNode a b).swap
  | .leaf w1 s1, .leaf w2 s2 => by
    simp [cmpNode, ordering_then_swap, Nat.compare_swap]
  | .leaf _ _, .internal _ _ _ => by simp [cmpNode, Ordering.swap]
  | .internal _ _ _, .leaf _ _ => by simp [cmpNode, Ordering.swap]
  | .internal l1 r1 w1, .internal l2 r2 w2 => by
    have hl : cmpOpt l2 l1 = (cmpOpt l1 l2).swap := by
      cases l1 with
      | none => cases l2 <;> simp [cmpOpt, Ordering.swap]
      | some a =>
        cases l2 with
        | none => simp [cmpOpt, Ordering.swap]
        | some b => simpa [cmpOpt] using cmpNode_swap a b
    have hr : cmpOpt r2 r1 = (cmpOpt r1 r2).swap := by
      cases r1 with
      | none => cases r2 <;> simp [cmpOpt, Ordering.swap]
      | some a =>
        cases r2 with
        | none => simp [cmpOpt, Ordering.swap]
        | some b => simpa [cmpOpt] using cmpNode_swap a b
    rw [cmpNode_internal, cmpNode_internal, ordering_then_swap, ordering_then_swap,
      Nat.compare_swap, hl, hr]

/-- Strict transitivity of the derived order. -/
theorem cmpNode_lt_trans : ∀ a b c : Node,
    cmpNode a b = .lt → cmpNode b c = .lt → cmpNode a c = .lt
  | .leaf w1 s1, .leaf w2 s2, .leaf w3 s3 => by
    simp only [cmpNode, ordering_then_lt, ordering_then_eq,
      Nat.compare_eq_lt, Nat.compare_eq_eq]
    omega
  | .leaf _ _, .leaf _ _, .internal _ _ _ => by
    intro _ _
    simp [cmpNode]
  | .leaf _ _, .internal _ _ _, .leaf _ _ => by
    intro _ h2
    simp [cmpNode] at h2
  | .leaf _ _, .internal _ _ _, .internal _ _ _ => by
    intro _ _
    simp [cmpNode]
  | .internal _ _ _, .leaf _ _, _ => by
    intro h1 _
    simp [cmpNode] at h1
  | .internal _ _ _, .internal _ _ _, .leaf _ _ => by
    intro _ h2
    simp [cmpNode] at h2
  | .internal l1 r1 w1, .internal l2 r2 w2, .internal l3 r3 w3 => by
    intro h1 h2
    have optEq : ∀ x y : Option Node, cmpOpt x y = .eq ↔ x = y := by
      intro x y
      cases x <;> cases y <;> simp [cmpOpt, cmpNode_eq_iff]
    have hltl : cmpOpt l1 l2 = .lt → cmpOpt l2 l3 = .lt → cmpOpt l1 l3 = .lt := by
      cases l1 with
      | none =>
        cases l2 with
        | none => intro h _; simp [cmpOpt] at h
        | some b =>
          cases l3 with
          | none => intro _ h; simp [cmpOpt] at h
          | some c => intro _ _; simp [cmpOpt]
      | some a =>
        cases l2 with
        | none => intro h _; simp [cmpOpt] at h
        | some b =>
          cases l3 with
          | none => intro _ h; simp [cmpOpt] at h
          | some c =>
            intro hab hbc
            simp only [cmpOpt] at hab hbc ⊢
            exact cmpNode_lt_trans a b c hab hbc
    have hltr : cmpOpt r1 r2 = .lt → cmpOpt r2 r3 = .lt → cmpOpt r1 r3 = .lt := by
      cases r1 with
      | none =>
        cases r2 with
        | none => intro h _; simp [cmpOpt] at h
        | some b =>
          cases r3 with
          | none => intro _ h; simp [cmpOpt] at h
          | some c => intro _ _; simp [cmpOpt]
      | some a =>
        cases r2 with
        | none => intro h _; simp [cmpOpt] at h
        | some b =>
          cases r3 with
          | none => intro _ h; simp [cmpOpt] at h
          | some c =>
            intro hab hbc
            simp only [cmpOpt] at hab hbc ⊢
            exact cmpNode_lt_trans a b c hab hbc
    rw [cmpNode_internal] at h1 h2 ⊢
    simp only [ordering_then_lt, ordering_then_eq, optEq,
      Nat.compare_eq_lt, Nat.compare_eq_eq] at h1 h2 ⊢
    rcases h1 with (hL1 | ⟨eL1, hR1⟩) | ⟨⟨eL1, eR1⟩, hW1⟩ <;>
      rcases h2 with (hL2 | ⟨eL2, hR2⟩) | ⟨⟨eL2, eR2⟩, hW2⟩ <;>
      subst_vars
    · exact Or.inl (Or.inl (hltl hL1 hL2))
    · exact Or.inl (Or.inl hL1)
    · exact Or.inl (Or.inl hL1)
    · exact Or.inl (Or.inl hL2)
    · exact Or.inl (Or.inr ⟨rfl, hltr hR1 hR2⟩)
    · exact Or.inl (Or.inr ⟨rfl, hR1⟩)
    · exact Or.inl (Or.inl hL2)
    · exact Or.inl (Or.inr ⟨rfl, hR2⟩)
    · exact Or.inr ⟨⟨rfl, rfl⟩, by omega⟩

/-- `cmpNode a b ≠ .gt` means `a` is below or equal to `b`. -/
theorem cmpNode_le_iff (a b : Node) : cmpNode a b ≠ .gt ↔ cmpNode a b = .lt ∨ a = b := by
  constructor
  · intro h
    cases hc : cmpNode a b with
    | lt => exact Or.inl rfl
    | eq => exact Or.inr ((cmpNode_eq_iff a b).1 hc)
    | gt => exact absurd hc h
  · intro h
    rcases h with h | rfl
    · simp [h]
    · rw [(cmpNode_eq_iff a a).2 rfl]
      simp

/-- Transitivity of `cmpNode _ _ ≠ .gt`. -/
theorem cmpNode_le_trans {a b c : Node}
    (hab : cmpNode a b ≠ .gt) (hbc : cmpNode b c ≠ .gt) : cmpNode a c ≠ .gt := by
  rw [cmpNode_le_iff] at hab hbc ⊢
  rcases hab with hab | rfl
  · rcases hbc with hbc | rfl
    · exact Or.inl (cmpNode_lt_trans a b c hab hbc)
    · exact Or.inl hab
  · exact hbc

/-! ## Heap-pop lemmas -/

/-- `popMin` answers `none` only on the empty list. -/
theorem popMin_none : ∀ l : List Node, popMin l = none → l = []
  | [] => fun _ => rfl
  | n :: rest => by
    intro h
    cases hr : popMin rest with
    | none => simp [popMin, hr] at h
    | some p =>
      obtain ⟨m, rr⟩ := p
      simp only [popMin, hr] at h
      split at h <;> simp at h

/-- Popping returns a permutation: the popped element together with the
rest reorders the original list. -/
theorem popMin_perm : ∀ (l : List Node) (n : Node) (r : List Node),
    popMin l = some (n, r) → l.Perm (n :: r)
  | [], n, r => by simp [popMin]
  | n0 :: rest, n, r => by
    intro h
    cases hr : popMin rest with
    | none =>
      have : rest = [] := popMin_none rest hr
      subst this
      simp only [popMin, Option.some.injEq, Prod.mk.injEq] at h
      obtain ⟨rfl, rfl⟩ := h
      exact List.Perm.refl _
    | some p =>
      obtain ⟨m, rr⟩ := p
      have ih := popMin_perm rest m rr hr
      simp only [popMin, hr] at h
      by_cases hc : cmpNode n0 m = .gt
      · rw [if_pos hc] at h
        simp only [Option.some.injEq, Prod.mk.injEq] at h
        obtain ⟨rfl, rfl⟩ := h
        exact (ih.cons n0).trans (List.Perm.swap m n0 rr)
      · rw [if_neg hc] at h
        simp only [Option.some.injEq, Prod.mk.injEq] at h
        obtain ⟨rfl, rfl⟩ := h
        exact List.Perm.refl _

/-- The popped node is minimal: it does not compare `.gt` against anything
left in the rest. -/
theorem popMin_min : ∀ (l : List Node) (n : Node) (r : List Node),
    popMin l = some (n, r) → ∀ m ∈ r, cmpNode n m ≠ .gt
  | [], n, r => by simp [popMin]
  | n0 :: rest, n, r => by
    intro h
    cases hr : popMin rest with
    | none =>
      have : rest = [] := popMin_none rest hr
      subst this
      simp only [popMin, Option.some.injEq, Prod.mk.injEq] at h
      obtain ⟨rfl, rfl⟩ := h
      simp
    | some p =>
      obtain ⟨m0, rr⟩ := p
      have ih := popMin_min rest m0 rr hr
      have perm := popMin_perm rest m0 rr hr
      simp only [popMin, hr] at h
      by_cases hc : cmpNode n0 m0 = .gt
      · rw [if_pos hc] at h
        simp only [Option.some.injEq, Prod.mk.injEq] at h
        obtain ⟨rfl, rfl⟩ := h
        intro x hx
        rcases List.mem_cons.1 hx with rfl | hx
        · intro hgt
          rw [cmpNode_swap] at hgt
          rw [hc] at hgt
          simp [Ordering.swap] at hgt
        · exact ih x hx
      · rw [if_neg hc] at h
        simp only [Option.some.injEq, Prod.mk.injEq] at h
        obtain ⟨rfl, rfl⟩ := h
        intro x hx
        rcases List.mem_cons.1 (perm.mem_iff.1 hx) with rfl | hx2
        · exact hc
        · exact cmpNode_le_trans hc (ih x hx2)

/-! ## Merge-loop invariants -/

/-- Running the merge loop with enough fuel on a non-empty heap leaves a
single node that carries the total weight; it is weight-consistent whenever
every starting node is. -/
theorem huffLoop_singleton : ∀ (fuel : Nat) (l : List Node),
    l.length ≤ fuel + 1 → l ≠ [] →
    ∃ r : Node, huffLoopFuel fuel l = [r] ∧ r.weight = sumWeights l ∧
      ((∀ n ∈ l, wellWeighted n) → wellWeighted r)
  | 0, l => by
    intro hlen hne
    match l, hlen, hne with
    | [x], _, _ =>
      exact ⟨x, rfl, by simp [sumWeights], fun h => h x (by simp)⟩
    | x :: y :: rest, hlen, _ => simp at hlen
  | fuel + 1, l => by
    intro hlen hne
    cases h0 : popMin l with
    | none => exact absurd (popMin_none l h0) hne
    | some p0 =>
      obtain ⟨n0, r0⟩ := p0
      have perm0 := popMin_perm l n0 r0 h0
      cases h1 : popMin r0 with
      | none =>
        have hr0 : r0 = [] := popMin_none r0 h1
        subst hr0
        have hl : l = [n0] := List.perm_singleton.1 perm0
        subst hl
        refine ⟨n0, ?_, by simp [sumWeights], fun h => h n0 (by simp)⟩
        simp [huffLoopFuel, h0, h1]
      | some p1 =>
        obtain ⟨n1, r1⟩ := p1
        have perm1 := popMin_perm r0 n1 r1 h1
        have hstep : huffLoopFuel (fuel + 1) l =
            huffLoopFuel fuel
              (Node.internal (some n0) (some n1) (n0.weight + n1.weight) :: r1) := by
          simp [huffLoopFuel, h0, h1]
        have e0 : l.length = r0.length + 1 := by
          simpa using perm0.length_eq
        have e1 : r0.length = r1.length + 1 := by
          simpa using perm1.length_eq
        have hlen' :
            (Node.internal (some n0) (some n1) (n0.weight + n1.weight) :: r1).length ≤
              fuel + 1 := by
          simp only [List.length_cons]
          omega
        obtain ⟨r, hr, hw, hww⟩ :=
          huffLoop_singleton fuel
            (Node.internal (some n0) (some n1) (n0.weight + n1.weight) :: r1)
            hlen' (by simp)
        have s0 : sumWeights l = n0.weight + sumWeights r0 := by
          have := (perm0.map Node.weight).sum_eq
          simpa [sumWeights] using this
        have s1 : sumWeights r0 = n1.weight + sumWeights r1 := by
          have := (perm1.map Node.weight).sum_eq
          simpa [sumWeights] using this
        refine ⟨r, hstep ▸ hr, ?_, ?_⟩
        · rw [hw]
          simp only [sumWeights, List.map_cons, List.sum_cons, Node.weight] at *
          omega
        · intro hall
          apply hww
          intro x hx
          rcases List.mem_cons.1 hx with rfl | hx2
          · have hn0 : wellWeighted n0 := hall n0 (perm0.mem_iff.2 (by simp))
            have hn1 : wellWeighted n1 :=
              hall n1 (perm0.mem_iff.2 (List.mem_cons.2 (Or.inr (perm1.mem_iff.2 (by simp)))))
            simp [wellWeighted, hn0, hn1]
          · exact hall x
              (perm0.mem_iff.2 (List.mem_cons.2 (Or.inr (perm1.mem_iff.2
                (List.mem_cons.2 (Or.inr hx2))))))

/-! ## Frequency-count lemmas -/

/-- One `bumpFreq` step adds exactly one to the total count. -/
theorem bumpFreq_snd_sum : ∀ (acc : List (Nat × Nat)) (c : Nat),
    ((bumpFreq acc c).map Prod.snd).sum = (acc.map Prod.snd).sum + 1
  | [], c => by simp [bumpFreq]
  | (c0, v) :: rest, c => by
    by_cases h : c0 = c
    · simp [bumpFreq, h]
      omega
    · simp [bumpFreq, h, bumpFreq_snd_sum rest c]
      omega

/-- The total count accumulated by `calc_freq`'s fold equals the number of
symbols processed. -/
theorem calcFreq_fold_sum : ∀ (input : List Nat) (acc : List (Nat × Nat)),
    ((input.foldl bumpFreq acc).map Prod.snd).sum = (acc.map Prod.snd).sum + input.length
  | [], acc => by simp
  | c :: cs, acc => by
    simp only [List.foldl_cons, calcFreq_fold_sum cs (bumpFreq acc c), bumpFreq_snd_sum,
      List.length_cons]
    omega

/-- The counts in `calc_freq input` sum to the length of the input. -/
theorem calcFreq_sum (input : List Nat) :
    ((calcFreq input).map Prod.snd).sum = input.length := by
  simpa using calcFreq_fold_sum input []

/-- `bumpFreq` never returns the empty table. -/
theorem bumpFreq_ne_nil : ∀ (acc : List (Nat × Nat)) (c : Nat), bumpFreq acc c ≠ []
  | [], c => by simp [bumpFreq]
  | (c0, v) :: rest, c => by
    by_cases h : c0 = c <;> simp [bumpFreq, h]

/-- `calc_freq` of a non-empty input is non-empty. -/
theorem calcFreq_ne_nil : ∀ (input : List Nat), input ≠ [] → calcFreq input ≠ [] := by
  have fold_ne : ∀ (cs : List Nat) (acc : List (Nat × Nat)),
      acc ≠ [] → cs.foldl bumpFreq acc ≠ [] := by
    intro cs
    induction cs with
    | nil => intro acc h; simpa using h
    | cons c cs ih =>
      intro acc _
      simpa using ih (bumpFreq acc c) (bumpFreq_ne_nil acc c)
  intro input hne
  match input with
  | c :: cs =>
    show (c :: cs).foldl bumpFreq [] ≠ []
    simpa using fold_ne cs (bumpFreq [] c) (bumpFreq_ne_nil [] c)

/-- C8: in every tree `calc_huff` builds from `calc_freq input`, every
`Internal` node has both children and carries exactly the sum of their
weights, and the root's weight is the length of the input. -/
theorem calcHuff_weight_invariant (input : List Nat) (t : Node)
    (h : calcHuff (calcFreq input) = some t) :
    wellWeighted t ∧ t.weight = input.length := by
  by_cases hinput : input = []
  · subst hinput
    exact absurd h (by simp [calcHuff, calcFreq, huffLoopFuel, popMin])
  · have hfr : calcFreq input ≠ [] := calcFreq_ne_nil input hinput
    have hleaves : ((calcFreq input).map fun i => Node.leaf i.2 i.1) ≠ [] := by
      simpa using hfr
    have hlen : ((calcFreq input).map fun i => Node.leaf i.2 i.1).length ≤
        (calcFreq input).length + 1 := by
      simp
    obtain ⟨r, hr, hw, hww⟩ :=
      huffLoop_singleton (calcFreq input).length
        ((calcFreq input).map fun i => Node.leaf i.2 i.1) hlen hleaves
    rw [calcHuff, hr] at h
    have hpop : popMin [r] = some (r, []) := rfl
    rw [hpop] at h
    simp at h
    subst h
    constructor
    · apply hww
      intro n hn
      obtain ⟨i, _, rfl⟩ := List.mem_map.1 hn
      simp [wellWeighted]
    · rw [hw]
      have : sumWeights ((calcFreq input).map fun i => Node.leaf i.2 i.1) =
          ((calcFreq input).map Prod.snd).sum := by
        simp only [sumWeights, List.map_map]
        congr 1
      rw [this, calcFreq_sum]

/-- Witness for `calcHuff_weight_invariant` at the `"Hello"` input. -/
theorem calcHuff_weight_invariant_witness :
    wellWeighted (Node.internal
      (some (Node.internal (some (Node.leaf 1 72)) (some (Node.leaf 1 101)) 2))
      (some (Node.internal (some (Node.leaf 1 111)) (some (Node.leaf 2 108)) 3)) 5)
    ∧ (Node.internal
      (some (Node.internal (some (Node.leaf 1 72)) (some (Node.leaf 1 101)) 2))
      (some (Node.internal (some (Node.leaf 1 111)) (some (Node.leaf 2 108)) 3))
      5).weight = [72, 101, 108, 108, 111].length :=
  calcHuff_weight_invariant [72, 101, 108, 108, 111]
    (Node.internal
      (some (Node.internal (some (Node.leaf 1 72)) (some (Node.leaf 1 101)) 2))
      (some (Node.internal (some (Node.leaf 1 111)) (some (Node.leaf 2 108)) 3)) 5)
    rfl

/-! ## Prefix-freeness of the derived code table -/

/-- Every code recorded under an accumulated path extends that path. -/
theorem huffCompress_code_ext : ∀ (t : Node) (code : List Nat) (p : Nat × List Nat),
    p ∈ huffCompress t code → ∃ tail, p.2 = code ++ tail
  | .leaf _ s, code, p => by
    intro hp
    simp only [huffCompress, List.mem_singleton] at hp
    subst hp
    exact ⟨[], by simp⟩
  | .internal l r w, code, p => by
    intro hp
    cases l with
    | none =>
      cases r with
      | none => simp [huffCompress] at hp
      | some y =>
        simp only [huffCompress, List.nil_append] at hp
        obtain ⟨tail, ht⟩ := huffCompress_code_ext y (code ++ [1]) p hp
        exact ⟨1 :: tail, by simp [ht]⟩
    | some x =>
      cases r with
      | none =>
        simp only [huffCompress, List.append_nil] at hp
        obtain ⟨tail, ht⟩ := huffCompress_code_ext x (code ++ [0]) p hp
        exact ⟨0 :: tail, by simp [ht]⟩
      | some y =>
        simp only [huffCompress, List.mem_append] at hp
        rcases hp with hp | hp
        · obtain ⟨tail, ht⟩ := huffCompress_code_ext x (code ++ [0]) p hp
          exact ⟨0 :: tail, by simp [ht]⟩
        · obtain ⟨tail, ht⟩ := huffCompress_code_ext y (code ++ [1]) p hp
          exact ⟨1 :: tail, by simp [ht]⟩

/-- Two lists sharing a stem but diverging at the next position are
prefix-incomparable. -/
theorem stem_diverge_not_pre (p : List Nat) (x y : Nat) (ta tb : List Nat) (hxy : x ≠ y) :
    ¬ (p ++ x :: ta) <+: (p ++ y :: tb) := by
  rintro ⟨t2, ht⟩
  rw [List.append_assoc] at ht
  have h2 := List.append_cancel_left ht
  simp only [List.cons_append, List.cons.injEq] at h2
  exact hxy h2.1

/-- All codes recorded by one `huff_compress` traversal are pairwise
prefix-incomparable. -/
theorem huffCompress_pairwise : ∀ (t : Node) (code : List Nat),
    (huffCompress t code).Pairwise (fun a b => ¬ a.2 <+: b.2 ∧ ¬ b.2 <+: a.2)
  | .leaf _ s, code => by simp [huffCompress]
  | .internal l r w, code => by
    cases l with
    | none =>
      cases r with
      | none => simp [huffCompress]
      | some y => simpa [huffCompress] using huffCompress_pairwise y (code ++ [1])
    | some x =>
      cases r with
      | none => simpa [huffCompress] using huffCompress_pairwise x (code ++ [0])
      | some y =>
        simp only [huffCompress]
        rw [List.pairwise_append]
        refine ⟨huffCompress_pairwise x (code ++ [0]), huffCompress_pairwise y (code ++ [1]), ?_⟩
        intro a ha b hb
        obtain ⟨ta, hta⟩ := huffCompress_code_ext x (code ++ [0]) a ha
        obtain ⟨tb, htb⟩ := huffCompress_code_ext y (code ++ [1]) b hb
        rw [List.append_assoc] at hta htb
        simp only [List.cons_append, List.nil_append] at hta htb
        constructor
        · rw [hta, htb]
          exact stem_diverge_not_pre code 0 1 ta tb (by decide)
        · rw [hta, htb]
          exact stem_diverge_not_pre code 1 0 tb ta (by decide)

/-- C7: in the code table derived from the tree `calc_huff` builds, two
distinct symbols never receive codes where one is a prefix of the other
(in particular their codes differ). -/
theorem calcHuff_codes_incomparable (fr : List (Nat × Nat)) (t : Node)
    (_h : calcHuff fr = some t) (s1 s2 : Nat) (c1 c2 : List Nat)
    (h1 : (s1, c1) ∈ huffCompress t []) (h2 : (s2, c2) ∈ huffCompress t [])
    (hne : s1 ≠ s2) : ¬ c1 <+: c2 ∧ c1 ≠ c2 := by
  have hp := huffCompress_pairwise t []
  have hsym : Symmetric (fun a b : Nat × List Nat => ¬ a.2 <+: b.2 ∧ ¬ b.2 <+: a.2) :=
    fun a b hab => ⟨hab.2, hab.1⟩
  have hne2 : ((s1, c1) : Nat × List Nat) ≠ (s2, c2) :=
    fun e => hne (congrArg Prod.fst e)
  obtain ⟨hnp, _⟩ := hp.forall hsym h1 h2 hne2
  constructor
  · exact hnp
  · intro e
    subst e
    exact hnp List.prefix_rfl

/-- Witness for `calcHuff_codes_incomparable` on the table `{a: 1, b: 1}`:
the codes `[0]` and `[1]` are incomparable and distinct. -/
theorem calcHuff_codes_incomparable_witness :
    ¬ ([0] : List Nat) <+: [1] ∧ ([0] : List Nat) ≠ [1] :=
  calcHuff_codes_incomparable [(97, 1), (98, 1)]
    (Node.internal (some (Node.leaf 1 97)) (some (Node.leaf 1 98)) 2) rfl
    97 98 [0] [1] (by decide) (by decide) (by decide)

/-- C3 (amended): each step of `calc_huff` pops the two minimal nodes of
the heap under the *derived structural order* `cmpNode` and merges them
into an `Internal` node whose weight is the sum of theirs.  That order
ranks every `Leaf` before every `Internal` node regardless of weight, and
orders `Leaf`s by weight and then by symbol code point — so equal-weight
ties among leaves are broken by symbol value, not by first appearance in
the input.  Being a function of the input, the construction is
deterministic. -/
theorem calcHuff_pop_order :
    (∀ (l : List Node) (n : Node) (r : List Node), popMin l = some (n, r) →
      ∀ m ∈ r, cmpNode n m ≠ .gt)
    ∧ (∀ (w1 s1 : Nat) (l r : Option Node) (w2 : Nat),
        cmpNode (.leaf w1 s1) (.internal l r w2) = .lt)
    ∧ (∀ w1 s1 w2 s2 : Nat,
        cmpNode (.leaf w1 s1) (.leaf w2 s2) = .lt ↔ w1 < w2 ∨ (w1 = w2 ∧ s1 < s2))
    ∧ (∀ (fuel : Nat) (l : List Node) (n0 n1 : Node) (r0 r1 : List Node),
        popMin l = some (n0, r0) → popMin r0 = some (n1, r1) →
        huffLoopFuel (fuel + 1) l =
          huffLoopFuel fuel
            (Node.internal (some n0) (some n1) (n0.weight + n1.weight) :: r1)) := by
  refine ⟨popMin_min, ?_, ?_, ?_⟩
  · intro w1 s1 l r w2
    simp [cmpNode]
  · intro w1 s1 w2 s2
    simp [cmpNode, ordering_then_lt, ordering_then_eq, Nat.compare_eq_lt, Nat.compare_eq_eq]
  · intro fuel l n0 n1 r0 r1 h0 h1
    simp [huffLoopFuel, h0, h1]

/-- Witness for `calcHuff_pop_order` at concrete heaps and nodes. -/
theorem calcHuff_pop_order_witness :
    cmpNode (Node.leaf 1 97) (Node.leaf 2 98) ≠ .gt
    ∧ cmpNode (Node.leaf 1 97) (Node.internal none none 5) = .lt
    ∧ (cmpNode (Node.leaf 1 97) (Node.leaf 1 98) = .lt ↔ 1 < 1 ∨ (1 = 1 ∧ 97 < 98))
    ∧ huffLoopFuel 1 [Node.leaf 1 97, Node.leaf 1 98] =
        huffLoopFuel 0 (Node.internal (some (Node.leaf 1 97)) (some (Node.leaf 1 98))
          ((Node.leaf 1 97).weight + (Node.leaf 1 98).weight) :: []) :=
  ⟨calcHuff_pop_order.1 [Node.leaf 1 97, Node.leaf 2 98] (Node.leaf 1 97) [Node.leaf 2 98]
      rfl (Node.leaf 2 98) (by simp),
   calcHuff_pop_order.2.1 1 97 none none 5,
   calcHuff_pop_order.2.2.1 1 97 1 98,
   calcHuff_pop_order.2.2.2 0 [Node.leaf 1 97, Node.leaf 1 98] (Node.leaf 1 97) (Node.leaf 1 98)
      [Node.leaf 1 98] [] rfl rfl⟩

/-- C10: the leaves that `into_node`'s scan reads back from a serialized
tree are exactly the tree's leaf symbols reduced mod 256 (each one written
by `as_bytes_rec` as `symb as u8`), and for the tree of the one-character
input with code point 256 the reconstructed leaf symbol is `0`, not the
original `256`. -/
theorem serialization_symbol_mod256 :
    (∀ t : Node, collectLeaves (asBytes t) =
      some ((leafSymbols t).map fun s => Node.leaf 0 (s % 256)))
    ∧ calcHuff (calcFreq [256]) = some (Node.leaf 1 256)
    ∧ intoNode (asBytes (Node.leaf 1 256)) = some (Node.leaf 0 0)
    ∧ leafSymbols (Node.leaf 0 0) ≠ leafSymbols (Node.leaf 1 256) := by
  refine ⟨fun t => ?_, rfl, rfl, by decide⟩
  have h := collectLeaves_serBytes t []
  rw [List.append_nil] at h
  rw [asBytes, asBytesRec_eq_append, List.nil_append, h,
    show collectLeaves [] = some [] from rfl]
  simp
